import Mathlib

/-!
Shallow embedding of `src/gateware/bundle_multiplexer.py` (class
`BundleMultiplexer`): a synchronous round-robin bundle-to-channel stream
multiplexer with one elastic FIFO buffer per input bundle.

The hardware is modelled as a deterministic step function on an explicit
state: per-bundle FIFO contents as lists, plus the selector registers
`current_bundle` and `first_bundle_channel`.  One application of `stepC`
is one clock tick: outputs are computed combinationally from the current
state (phase 1) and the next state is committed atomically (phase 2).
Machine-integer truncation is modelled with explicit `% 2 ^ width`.
-/

namespace BundleMultiplexer

/-- `NO_CHANNELS_ADAT` in the source: sub-channels per bundle. -/
def C : ℕ := 8

/-- `SAMPLE_WIDTH` in the source: payload width in bits. -/
def W : ℕ := 24

/-- Width of the per-bundle channel field: `Shape.cast(range(NO_CHANNELS_ADAT)).width`. -/
def bundleBits : ℕ := Nat.size (C - 1)

/-- Width of the output channel field: `Shape.cast(range(no_bundles * NO_CHANNELS_ADAT)).width`. -/
def chanBits (N : ℕ) : ℕ := Nat.size (N * C - 1)

/-- Width of the `current_bundle` register: `Signal(range(no_bundles))`. -/
def curBits (N : ℕ) : ℕ := Nat.size (N - 1)

/-- A wire-level input event on `bundles_in[i]`: payload, channel_nr,
first and last flags presented together with `valid`. -/
structure InEvent where
  payload : ℕ
  channel : ℕ
  first   : Bool
  last    : Bool
deriving Repr, DecidableEq

/-- A record held in a receive FIFO: `w_data` packs the payload in the low
`SAMPLE_WIDTH` bits, the channel number above it and the last flag in the
top bit.  The input stream's `first` field is not stored anywhere. -/
structure StoredEvent where
  payload : ℕ
  channel : ℕ
  last    : Bool
deriving Repr, DecidableEq

/-- Modelled from the spec: the FIFO write side wiring
(`connect_stream_to_fifo`, from the external `nmigen_library` package,
plus the two slice overrides in the source) packs payload, channel and
last into the stored record, truncated to the signal widths; the `first`
flag is informational only and is dropped. -/
def store (e : InEvent) : StoredEvent :=
  ⟨e.payload % 2 ^ W, e.channel % 2 ^ bundleBits, e.last⟩

/-- An event on `channel_stream_out` in a cycle where `valid` is asserted. -/
structure OutEvent where
  payload    : ℕ
  channel_nr : ℕ
  first      : Bool
  last       : Bool
deriving Repr, DecidableEq

/-- Registered state of the multiplexer: the contents of the `no_bundles`
receive FIFOs (front of each queue at the head of the list), plus the
selector registers `current_bundle` and `first_bundle_channel`. -/
structure MuxState (N : ℕ) where
  buffers : Fin N → List StoredEvent
  cur     : ℕ
  base    : ℕ

/-- External stimulus for one clock tick: per-bundle write attempts
(`valid` with the offered event) and the consumer's `ready`. -/
structure StepInput (N : ℕ) where
  writes : Fin N → Option InEvent
  ready  : Bool

/-- Power-on state: FIFOs empty, both selector registers reset to zero. -/
def initState (N : ℕ) : MuxState N := ⟨fun _ => [], 0, 0⟩

/-- Head-of-queue view of the currently selected FIFO
(`bundle_ready[current_bundle]` with its front data), guarded by the
array index being in range. -/
def selFront {N : ℕ} (st : MuxState N) : Option StoredEvent :=
  if h : st.cur < N then (st.buffers ⟨st.cur, h⟩).head? else none

/-- The combinational output event built from the selected front event:
`payload`, `channel_nr = first_bundle_channel + bundle_channel` truncated
to the output field width, `first = (current_bundle == 0) & (channel == 0)`,
`last` asserted only for the last flag of the last bundle. -/
def mkOut {N : ℕ} (st : MuxState N) (e : StoredEvent) : OutEvent :=
  { payload    := e.payload
  , channel_nr := (st.base + e.channel) % 2 ^ chanBits N
  , first      := decide (st.cur = 0) && decide (e.channel = 0)
  , last       := decide (st.cur = N - 1) && e.last }

/-- The `m.d.sync` selector update fired when the consumed event carries
the last flag: reset to `(0, 0)` on the last bundle, otherwise advance,
with arithmetic truncated to the registers' widths. -/
def nextSel {N : ℕ} (st : MuxState N) (e : StoredEvent) : ℕ × ℕ :=
  if e.last then
    if st.cur = N - 1 then (0, 0)
    else ((st.cur + 1) % 2 ^ curBits N, (st.base + C) % 2 ^ chanBits N)
  else (st.cur, st.base)

/-- Next contents of FIFO `b`: pop the front when this tick consumed from
`b`, then append an offered write if the FIFO had room (`w_rdy` is based
on the occupancy at the start of the tick). -/
def nextBuffer {N : ℕ} (st : MuxState N) (doPop : Bool) (inp : StepInput N) (b : Fin N) :
    List StoredEvent :=
  let afterPop := if doPop && (b.val == st.cur) then (st.buffers b).tail else st.buffers b
  match inp.writes b with
  | some e => if (st.buffers b).length < C then afterPop ++ [store e] else afterPop
  | none   => afterPop

/-- One clock tick.  An output event is emitted iff the selected FIFO is
non-empty and the consumer is ready; the emission is tagged with the
bundle it was consumed from and the consumed stored event. -/
def stepC {N : ℕ} (st : MuxState N) (inp : StepInput N) :
    MuxState N × Option (ℕ × StoredEvent × OutEvent) :=
  match selFront st, inp.ready with
  | some e, true =>
      (⟨fun b => nextBuffer st true inp b, (nextSel st e).1, (nextSel st e).2⟩,
       some (st.cur, e, mkOut st e))
  | _, _ =>
      (⟨fun b => nextBuffer st false inp b, st.cur, st.base⟩, none)

/-- Run a sequence of ticks, collecting the emitted (tagged) events. -/
def runC {N : ℕ} : MuxState N → List (StepInput N) → MuxState N × List (ℕ × StoredEvent × OutEvent)
  | st, [] => (st, [])
  | st, inp :: rest =>
      ((runC (stepC st inp).1 rest).1, (stepC st inp).2.toList ++ (runC (stepC st inp).1 rest).2)

/-- A state is reachable when some stimulus drives the power-on state to it. -/
def Reachable (N : ℕ) (st : MuxState N) : Prop :=
  ∃ inps : List (StepInput N), (runC (initState N) inps).1 = st

/-- The master state invariant: the selected bundle index is in range,
`first_bundle_channel` is the running sum `current_bundle * C`, and every
buffered record respects the stored field widths and FIFO capacity. -/
def Inv {N : ℕ} (st : MuxState N) : Prop :=
  st.cur < N ∧ st.base = st.cur * C ∧
    ∀ b : Fin N, (st.buffers b).length ≤ C ∧
      ∀ e ∈ st.buffers b, e.payload < 2 ^ W ∧ e.channel < C

/-- A tick with no write attempts and the consumer ready. -/
def drainTick (N : ℕ) : StepInput N := ⟨fun _ => none, true⟩

/-- A tick with no write attempts and the consumer stalled. -/
def stallTick (N : ℕ) : StepInput N := ⟨fun _ => none, false⟩

/-- One well-formed bundle frame as stored in a FIFO: sub-channels
`0 .. C-1` in order, last flag exactly on the final sub-channel. -/
def mkFrame (p : ℕ → ℕ) : List StoredEvent :=
  (List.range C).map fun i => ⟨p i % 2 ^ W, i, decide (i = C - 1)⟩

/-- State with every FIFO holding one full well-formed frame and the
selector at power-on position. -/
def fullState (N : ℕ) (p : ℕ → ℕ → ℕ) : MuxState N :=
  ⟨fun b => mkFrame (p b.val), 0, 0⟩

/-- State in the middle of a round: bundles below `j` already drained,
bundles from `j` up still holding their frames, selector at bundle `j`. -/
def midState (N : ℕ) (p : ℕ → ℕ → ℕ) (j : ℕ) : MuxState N :=
  ⟨fun b => if b.val < j then [] else mkFrame (p b.val), j, j * C⟩

/-- The expected tagged trace of draining bundle `b`'s frame. -/
def frameTrace (N : ℕ) (p : ℕ → ℕ → ℕ) (b : ℕ) : List (ℕ × StoredEvent × OutEvent) :=
  (List.range C).map fun i =>
    (b, ⟨p b i % 2 ^ W, i, decide (i = C - 1)⟩,
        ⟨p b i % 2 ^ W, b * C + i, decide (b = 0) && decide (i = 0),
         decide (b = N - 1) && decide (i = C - 1)⟩)

/-- The expected tagged trace of one full round over all bundles. -/
def roundTrace (N : ℕ) (p : ℕ → ℕ → ℕ) : List (ℕ × StoredEvent × OutEvent) :=
  (List.range N).flatMap (frameTrace N p)

/-- The plain output-event stream produced by draining one full round
from `fullState` with the consumer ready throughout. -/
def drainOuts (N : ℕ) (p : ℕ → ℕ → ℕ) : List OutEvent :=
  (runC (fullState N p) (List.replicate (N * C) (drainTick N))).2.map fun t => t.2.2

/-- The selector transition taken when a consumed event carries the last
flag, as a function of the selector pair alone. -/
def selAdvance (N : ℕ) (s : ℕ × ℕ) : ℕ × ℕ :=
  if s.1 = N - 1 then (0, 0)
  else ((s.1 + 1) % 2 ^ curBits N, (s.2 + C) % 2 ^ chanBits N)

/-- The sequence of stored events written into bundle `b` by a stimulus
list (one per tick where the producer offers an event). -/
def writtenTo {N : ℕ} (b : Fin N) (inps : List (StepInput N)) : List StoredEvent :=
  inps.filterMap fun i => (i.writes b).map store

/-- The subsequence of a tagged trace consumed from bundle `b`. -/
def emittedFrom (b : ℕ) (tr : List (ℕ × StoredEvent × OutEvent)) : List StoredEvent :=
  (tr.filter fun t => t.1 == b).map fun t => t.2.1

/-- The producer-side handshake contract: an event is only offered to a
bundle on a tick where that bundle's FIFO has room. -/
def okHandshake {N : ℕ} : MuxState N → List (StepInput N) → Bool
  | _, [] => true
  | st, inp :: rest =>
      decide (∀ b : Fin N, (inp.writes b).isSome = true → (st.buffers b).length < C) &&
      okHandshake (stepC st inp).1 rest

/-- A stimulus scrubbed of the informational input `first` flags. -/
def scrub {N : ℕ} (inp : StepInput N) : StepInput N :=
  ⟨fun b => (inp.writes b).map fun e => ⟨e.payload, e.channel, false, e.last⟩, inp.ready⟩

/-- All of a well-formed frame but its final event (sub-channels `0..C-2`). -/
def midFrame (p : ℕ → ℕ) : List StoredEvent :=
  (List.range 7).map fun i => ⟨p i % 2 ^ W, i, decide (i = 7)⟩

/-- The final event of a well-formed frame: sub-channel `C-1`, last flag set. -/
def lastEv (p : ℕ → ℕ) : StoredEvent := ⟨p 7 % 2 ^ W, 7, true⟩

/-- The arbitration-order relation between consecutive tagged emissions:
a frame continues in the same bundle until its last-flagged event, after
which the next emission comes from the cyclically next bundle. -/
def chainRel (N : ℕ) (t t' : ℕ × StoredEvent × OutEvent) : Prop :=
  (t.2.1.last = false → t'.1 = t.1) ∧
  (t.2.1.last = true → t'.1 = if t.1 = N - 1 then 0 else t.1 + 1)

/-- A concrete stimulus tick for N = 4: bundle 0 is offered one event
(with the informational first flag set) while the consumer stalls. -/
def wIn0 : StepInput 4 := ⟨fun b => if b.val = 0 then some ⟨5, 0, true, false⟩ else none, false⟩

/-- The concrete reachable state after one `wIn0` tick from power-on. -/
def wSt1 : MuxState 4 := (runC (initState 4) [wIn0]).1

/-- The same stimulus tick as `wIn0` with the informational first flag clear. -/
def wIn0x : StepInput 4 := ⟨fun b => if b.val = 0 then some ⟨5, 0, false, false⟩ else none, false⟩

/-- A concrete payload pattern for whole-round scenarios: bundle `b`,
sub-channel `i` carries `b * 256 + i`. -/
def pW : ℕ → ℕ → ℕ := fun b i => b * 256 + i

instance {N : ℕ} : DecidableEq (StepInput N) := fun a b =>
  decidable_of_iff (a.writes = b.writes ∧ a.ready = b.ready)
    (by cases a; cases b; simp)

lemma bundleBits_eq : bundleBits = 3 := by
  have h1 : Nat.size 7 ≤ 3 := Nat.size_le.mpr (by norm_num)
  have h2 : 2 < Nat.size 7 := Nat.lt_size.mpr (by norm_num)
  have hC : C - 1 = 7 := by norm_num [C]
  unfold bundleBits
  rw [hC]
  omega

lemma two_pow_bundleBits : (2 : ℕ) ^ bundleBits = C := by rw [bundleBits_eq]; rfl

lemma nextSel_not_last {N : ℕ} {st : MuxState N} {e : StoredEvent} (hel : e.last = false) :
    nextSel st e = (st.cur, st.base) := by
  unfold nextSel
  rw [hel]
  rfl

lemma nextSel_reset {N : ℕ} {st : MuxState N} {e : StoredEvent} (hel : e.last = true)
    (hb : st.cur = N - 1) : nextSel st e = (0, 0) := by
  unfold nextSel
  rw [hel, if_pos rfl, if_pos hb]

lemma nextSel_advance {N : ℕ} {st : MuxState N} {e : StoredEvent} (hel : e.last = true)
    (hb : st.cur ≠ N - 1) :
    nextSel st e = ((st.cur + 1) % 2 ^ curBits N, (st.base + C) % 2 ^ chanBits N) := by
  unfold nextSel
  rw [hel, if_pos rfl, if_neg hb]

lemma lt_two_pow_curBits {N a : ℕ} (h : a ≤ N - 1) : a < 2 ^ curBits N := by
  unfold curBits
  exact lt_of_le_of_lt h (Nat.lt_size_self _)

lemma lt_two_pow_chanBits {N a : ℕ} (h : a ≤ N * C - 1) : a < 2 ^ chanBits N := by
  unfold chanBits
  exact lt_of_le_of_lt h (Nat.lt_size_self _)

lemma stepC_emit {N : ℕ} {st : MuxState N} {inp : StepInput N} {e : StoredEvent}
    (hsel : selFront st = some e) (hrdy : inp.ready = true) :
    stepC st inp =
      (⟨fun b => nextBuffer st true inp b, (nextSel st e).1, (nextSel st e).2⟩,
       some (st.cur, e, mkOut st e)) := by
  unfold stepC
  rw [hsel, hrdy]

lemma stepC_stall {N : ℕ} {st : MuxState N} {inp : StepInput N}
    (h : selFront st = none ∨ inp.ready = false) :
    stepC st inp = (⟨fun b => nextBuffer st false inp b, st.cur, st.base⟩, none) := by
  unfold stepC
  rcases h with h | h
  · rw [h]
  · rw [h]
    rcases selFront st with _ | e <;> rfl

lemma nextBuffer_no_write {N : ℕ} {st : MuxState N} {dp : Bool} {inp : StepInput N} {b : Fin N}
    (h : inp.writes b = none) :
    nextBuffer st dp inp b =
      if dp && (b.val == st.cur) then (st.buffers b).tail else st.buffers b := by
  unfold nextBuffer
  rw [h]

lemma stepC_stall_id {N : ℕ} {st : MuxState N} {inp : StepInput N}
    (hrdy : inp.ready = false) (hw : ∀ b, inp.writes b = none) :
    stepC st inp = (st, none) := by
  rw [stepC_stall (Or.inr hrdy)]
  have hb : (fun b => nextBuffer st false inp b) = st.buffers := by
    funext b
    rw [nextBuffer_no_write (hw b)]
    simp
  rw [hb]

lemma runC_nil {N : ℕ} (st : MuxState N) : runC st [] = (st, []) := rfl

lemma runC_cons {N : ℕ} (st : MuxState N) (inp : StepInput N) (rest : List (StepInput N)) :
    runC st (inp :: rest) =
      ((runC (stepC st inp).1 rest).1, (stepC st inp).2.toList ++ (runC (stepC st inp).1 rest).2) :=
  rfl

lemma runC_append {N : ℕ} (l₁ l₂ : List (StepInput N)) :
    ∀ st : MuxState N,
      runC st (l₁ ++ l₂) =
        ((runC (runC st l₁).1 l₂).1, (runC st l₁).2 ++ (runC (runC st l₁).1 l₂).2) := by
  induction l₁ with
  | nil => intro st; simp [runC_nil]
  | cons inp rest ih =>
      intro st
      simp only [List.cons_append, runC_cons, ih (stepC st inp).1, List.append_assoc]

lemma mkOut_eq_sel {N : ℕ} {st t : MuxState N} (hc : st.cur = t.cur) (hb : st.base = t.base)
    (e : StoredEvent) : mkOut st e = mkOut t e := by
  unfold mkOut
  rw [hc, hb]

lemma inv_step {N : ℕ} {st : MuxState N} (hinv : Inv st) (inp : StepInput N) :
    Inv (stepC st inp).1 := by
  obtain ⟨hcur, hbase, hbuf⟩ := hinv
  have hCpos : 0 < C := by decide
  have hbuf' : ∀ dp, ∀ b : Fin N, (nextBuffer st dp inp b).length ≤ C ∧
      ∀ e ∈ nextBuffer st dp inp b, e.payload < 2 ^ W ∧ e.channel < C := by
    intro dp b
    have hlen := (hbuf b).1
    have hmem := (hbuf b).2
    have hpopLen : (if dp && (b.val == st.cur) then (st.buffers b).tail else st.buffers b).length
        ≤ (st.buffers b).length := by
      split
      · rw [List.length_tail]; omega
      · exact le_refl _
    have hpopMem : ∀ e ∈ (if dp && (b.val == st.cur) then (st.buffers b).tail
        else st.buffers b), e ∈ st.buffers b := by
      intro e he
      split at he
      · exact List.mem_of_mem_tail he
      · exact he
    unfold nextBuffer
    rcases hw : inp.writes b with _ | w
    · exact ⟨le_trans hpopLen hlen, fun e he => hmem e (hpopMem e he)⟩
    · simp only
      split
      · constructor
        · rw [List.length_append, List.length_singleton]
          omega
        · intro e he
          rcases List.mem_append.mp he with he | he
          · exact hmem e (hpopMem e he)
          · rw [List.mem_singleton.mp he]
            unfold store
            refine ⟨Nat.mod_lt _ (by positivity), ?_⟩
            rw [two_pow_bundleBits]
            exact Nat.mod_lt _ hCpos
      · exact ⟨le_trans hpopLen hlen, fun e he => hmem e (hpopMem e he)⟩
  rcases hsel : selFront st with _ | e
  · rw [stepC_stall (Or.inl hsel)]
    exact ⟨hcur, hbase, hbuf' false⟩
  · rcases hrdy : inp.ready with _ | _
    · rw [stepC_stall (Or.inr hrdy)]
      exact ⟨hcur, hbase, hbuf' false⟩
    · rw [stepC_emit hsel hrdy]
      rcases hel : e.last with _ | _
      · rw [nextSel_not_last hel]
        exact ⟨hcur, hbase, hbuf' true⟩
      · by_cases hb : st.cur = N - 1
        · rw [nextSel_reset hel hb]
          refine ⟨?_, by simp, hbuf' true⟩
          show (0 : ℕ) < N
          omega
        · rw [nextSel_advance hel hb]
          have h1 : st.cur + 1 ≤ N - 1 := by omega
          have h2 : (st.cur + 1) * C ≤ N * C - 1 := by
            have h3 : (st.cur + 1) * C ≤ (N - 1) * C := Nat.mul_le_mul_right _ h1
            have hNC : (N - 1) * C = N * C - C := by rw [Nat.sub_mul, one_mul]
            omega
          have hcb : st.base + C ≤ N * C - 1 := by
            rw [hbase]
            calc st.cur * C + C = (st.cur + 1) * C := by ring
            _ ≤ N * C - 1 := h2
          refine ⟨?_, ?_, hbuf' true⟩
          · show (st.cur + 1) % 2 ^ curBits N < N
            rw [Nat.mod_eq_of_lt (lt_two_pow_curBits h1)]
            omega
          · show (st.base + C) % 2 ^ chanBits N = ((st.cur + 1) % 2 ^ curBits N) * C
            rw [Nat.mod_eq_of_lt (lt_two_pow_curBits h1),
              Nat.mod_eq_of_lt (lt_two_pow_chanBits hcb), hbase]
            ring

lemma inv_run {N : ℕ} (inps : List (StepInput N)) :
    ∀ st : MuxState N, Inv st → Inv (runC st inps).1 := by
  induction inps with
  | nil => intro st h; exact h
  | cons inp rest ih => intro st h; exact ih _ (inv_step h inp)

lemma inv_init {N : ℕ} (hN : 0 < N) : Inv (initState N) := by
  refine ⟨hN, by simp [initState], fun b => ?_⟩
  simp [initState, C]

lemma inv_reachable {N : ℕ} (hN : 0 < N) {st : MuxState N} (h : Reachable N st) : Inv st := by
  obtain ⟨inps, hrun⟩ := h
  rw [← hrun]
  exact inv_run inps _ (inv_init hN)

lemma selFront_eq {N : ℕ} (st : MuxState N) (h : st.cur < N) :
    selFront st = (st.buffers ⟨st.cur, h⟩).head? := by
  unfold selFront
  rw [dif_pos h]

lemma nextSel_eq_sel {N : ℕ} {st t : MuxState N} (hc : st.cur = t.cur) (hb : st.base = t.base)
    (e : StoredEvent) : nextSel st e = nextSel t e := by
  unfold nextSel
  rw [hc, hb]

lemma drainTick_writes {N : ℕ} (b : Fin N) : (drainTick N).writes b = none := rfl

lemma drainTick_ready {N : ℕ} : (drainTick N).ready = true := rfl

lemma nextBuffer_drain {N : ℕ} (st : MuxState N) (h : st.cur < N) :
    (fun b => nextBuffer st true (drainTick N) b) =
      Function.update st.buffers ⟨st.cur, h⟩ (st.buffers ⟨st.cur, h⟩).tail := by
  funext b
  rw [nextBuffer_no_write (drainTick_writes b)]
  by_cases hb : b = ⟨st.cur, h⟩
  · subst hb
    simp
  · have hv : b.val ≠ st.cur := fun hv => hb (Fin.ext hv)
    simp [hv, Function.update_noteq hb]

lemma drain_frame {N : ℕ} :
    ∀ (mid : List StoredEvent) (fe : StoredEvent) (st : MuxState N) (h : st.cur < N),
      st.buffers ⟨st.cur, h⟩ = mid ++ [fe] →
      (∀ e ∈ mid, e.last = false) →
      runC st (List.replicate (mid.length + 1) (drainTick N)) =
        (⟨Function.update st.buffers ⟨st.cur, h⟩ [], (nextSel st fe).1, (nextSel st fe).2⟩,
         (mid ++ [fe]).map fun e => (st.cur, e, mkOut st e)) := by
  intro mid
  induction mid with
  | nil =>
      intro fe st h hbuf _
      have hsel : selFront st = some fe := by
        rw [selFront_eq st h, hbuf]
        rfl
      rw [List.length_nil, Nat.zero_add, List.replicate_one, runC_cons,
        stepC_emit hsel drainTick_ready, runC_nil]
      refine Prod.ext ?_ (by simp)
      show MuxState.mk _ _ _ = MuxState.mk _ _ _
      congr 1
      rw [nextBuffer_drain st h, hbuf]
      rfl
  | cons e mid' ih =>
      intro fe st h hbuf hmid
      have hsel : selFront st = some e := by
        rw [selFront_eq st h, hbuf]
        rfl
      have hel : e.last = false := hmid e (by simp)
      have hlen : (e :: mid').length + 1 = (mid'.length + 1) + 1 := by simp
      rw [hlen, List.replicate_succ, runC_cons, stepC_emit hsel drainTick_ready]
      have hbuf2 : (st.buffers ⟨st.cur, h⟩).tail = mid' ++ [fe] := by rw [hbuf]; rfl
      set st' : MuxState N :=
        ⟨fun b => nextBuffer st true (drainTick N) b, (nextSel st e).1, (nextSel st e).2⟩
        with hst'
      have hcur' : st'.cur = st.cur := by rw [hst', nextSel_not_last hel]
      have hbase' : st'.base = st.base := by rw [hst', nextSel_not_last hel]
      have h' : st'.cur < N := by rw [hcur']; exact h
      have hidx : (⟨st'.cur, h'⟩ : Fin N) = ⟨st.cur, h⟩ := Fin.ext hcur'
      have hbufs' : st'.buffers = Function.update st.buffers ⟨st.cur, h⟩ (mid' ++ [fe]) := by
        rw [hst']
        show (fun b => nextBuffer st true (drainTick N) b) = _
        rw [nextBuffer_drain st h, hbuf2]
      have hb' : st'.buffers ⟨st'.cur, h'⟩ = mid' ++ [fe] := by
        rw [hidx, hbufs']
        simp
      have hrest := ih fe st' h' hb' (fun x hx => hmid x (List.mem_cons_of_mem _ hx))
      have hupd : Function.update st'.buffers ⟨st'.cur, h'⟩ ([] : List StoredEvent) =
          Function.update st.buffers ⟨st.cur, h⟩ [] := by
        rw [hidx, hbufs', Function.update_idem]
      show ((runC st' (List.replicate (mid'.length + 1) (drainTick N))).1,
            (st.cur, e, mkOut st e) :: (runC st' (List.replicate (mid'.length + 1) (drainTick N))).2)
          = _
      rw [hrest]
      have htr : ((mid' ++ [fe]).map fun x => (st'.cur, x, mkOut st' x))
          = (mid' ++ [fe]).map fun x => (st.cur, x, mkOut st x) :=
        List.map_congr_left fun x _ => by rw [hcur', mkOut_eq_sel hcur' hbase' x]
      show (MuxState.mk _ _ _, ((st.cur, e, mkOut st e) :: ((mid' ++ [fe]).map
            fun x => (st'.cur, x, mkOut st' x)))) = (MuxState.mk _ _ _, _)
      rw [htr, hupd, nextSel_eq_sel hcur' hbase' fe, List.cons_append, List.map_cons]

lemma muxState_ext {N : ℕ} {a b : MuxState N} (h1 : a.buffers = b.buffers)
    (h2 : a.cur = b.cur) (h3 : a.base = b.base) : a = b := by
  cases a
  cases b
  cases h1
  cases h2
  cases h3
  rfl

lemma midFrame_length (p : ℕ → ℕ) : (midFrame p).length = 7 := by simp [midFrame]

lemma midFrame_last (p : ℕ → ℕ) : ∀ e ∈ midFrame p, e.last = false := by
  intro e he
  obtain ⟨i, hi, rfl⟩ := List.mem_map.mp he
  have hi7 : i < 7 := List.mem_range.mp hi
  exact decide_eq_false (by omega)

lemma mkFrame_decomp (p : ℕ → ℕ) : mkFrame p = midFrame p ++ [lastEv p] := by
  show (List.range (7 + 1)).map
      (fun i => (⟨p i % 2 ^ W, i, decide (i = 7)⟩ : StoredEvent)) = _
  rw [List.range_succ, List.map_append]
  rfl

lemma map_mkFrame_trace {N : ℕ} (st : MuxState N) (p : ℕ → ℕ → ℕ) (j : ℕ)
    (hcur : st.cur = j) (hbase : st.base = j * C) (hj : j < N) :
    (mkFrame (p j)).map (fun e => (st.cur, e, mkOut st e)) = frameTrace N p j := by
  unfold mkFrame frameTrace
  rw [List.map_map]
  apply List.map_congr_left
  intro i hi
  have hiC : i < C := List.mem_range.mp hi
  have hb : j * C + i ≤ N * C - 1 := by
    have h1 : (j + 1) * C ≤ N * C := Nat.mul_le_mul_right _ hj
    have h2 : (j + 1) * C = j * C + C := by ring
    omega
  show (st.cur, _, mkOut st _) = _
  unfold mkOut
  rw [hcur, hbase]
  show (j, _, (⟨_, (j * C + i) % 2 ^ chanBits N, _, _⟩ : OutEvent)) = _
  rw [Nat.mod_eq_of_lt (lt_two_pow_chanBits hb)]

lemma drain_aux {N : ℕ} (p : ℕ → ℕ → ℕ) :
    ∀ k, 0 < k → k ≤ N →
      runC (midState N p (N - k)) (List.replicate (k * C) (drainTick N)) =
        (initState N, (List.range' (N - k) k).flatMap (frameTrace N p)) := by
  intro k
  induction k with
  | zero => intro h; exact absurd h (lt_irrefl 0)
  | succ k ihk =>
      intro _ hkN
      have hNpos : 0 < N := by omega
      have hj : N - (k + 1) < N := by omega
      have hcur : (midState N p (N - (k + 1))).cur = N - (k + 1) := rfl
      have hlt : (midState N p (N - (k + 1))).cur < N := hj
      have hbufj : (midState N p (N - (k + 1))).buffers ⟨(midState N p (N - (k + 1))).cur, hlt⟩
          = midFrame (p (N - (k + 1))) ++ [lastEv (p (N - (k + 1)))] := by
        show (if N - (k + 1) < N - (k + 1) then [] else mkFrame (p (N - (k + 1)))) = _
        rw [if_neg (lt_irrefl _), mkFrame_decomp]
      have hdf := drain_frame (midFrame (p (N - (k + 1)))) (lastEv (p (N - (k + 1))))
        (midState N p (N - (k + 1))) hlt hbufj (midFrame_last _)
      have htr1 : (midFrame (p (N - (k + 1))) ++ [lastEv (p (N - (k + 1)))]).map
          (fun e => ((midState N p (N - (k + 1))).cur, e, mkOut (midState N p (N - (k + 1))) e))
          = frameTrace N p (N - (k + 1)) := by
        rw [← mkFrame_decomp]
        exact map_mkFrame_trace _ p _ rfl rfl hj
      rcases Nat.eq_zero_or_pos k with hk | hk
      · subst hk
        have hNk : N - 1 = N - (0 + 1) := by norm_num
        have hrep : (0 + 1) * C = (midFrame (p (N - (0 + 1)))).length + 1 := by
          rw [midFrame_length]
          norm_num [C]
        rw [hrep, hdf, htr1]
        have hsel : nextSel (midState N p (N - (0 + 1))) (lastEv (p (N - (0 + 1)))) = (0, 0) :=
          nextSel_reset rfl (by omega)
        have hbufs : Function.update (midState N p (N - (0 + 1))).buffers
            ⟨(midState N p (N - (0 + 1))).cur, hlt⟩ ([] : List StoredEvent)
            = (initState N).buffers := by
          funext b
          by_cases hbv : b = ⟨(midState N p (N - (0 + 1))).cur, hlt⟩
          · subst hbv
            simp [initState]
          · rw [Function.update_noteq hbv]
            have hv : b.val ≠ N - (0 + 1) := fun hv => hbv (Fin.ext hv)
            show (if b.val < N - (0 + 1) then [] else mkFrame (p b.val)) = _
            have hbN : b.val < N := b.isLt
            rw [if_pos (by omega)]
            rfl
        have hrng : (List.range' (N - (0 + 1)) (0 + 1)).flatMap (frameTrace N p)
            = frameTrace N p (N - (0 + 1)) := by
          show (List.range' (N - (0 + 1)) 1).flatMap (frameTrace N p) = _
          rw [List.range'_one]
          simp
        rw [hrng]
        refine Prod.ext ?_ rfl
        show MuxState.mk _ _ _ = initState N
        refine muxState_ext ?_ ?_ ?_
        · exact hbufs
        · rw [hsel]; rfl
        · rw [hsel]; rfl
      · have hne : N - (k + 1) ≠ N - 1 := by omega
        have hadv : nextSel (midState N p (N - (k + 1))) (lastEv (p (N - (k + 1))))
            = ((N - (k + 1) + 1) % 2 ^ curBits N, ((N - (k + 1)) * C + C) % 2 ^ chanBits N) :=
          nextSel_advance rfl hne
        have hmod1 : (N - (k + 1) + 1) % 2 ^ curBits N = N - k := by
          rw [Nat.mod_eq_of_lt (lt_two_pow_curBits (by omega : N - (k + 1) + 1 ≤ N - 1))]
          omega
        have hmod2 : ((N - (k + 1)) * C + C) % 2 ^ chanBits N = (N - k) * C := by
          have h1 : (N - (k + 1)) * C + C = (N - (k + 1) + 1) * C := by ring
          have h2 : (N - (k + 1) + 1) * C ≤ (N - 1) * C :=
            Nat.mul_le_mul_right _ (by omega)
          have h3 : (N - 1) * C = N * C - C := by rw [Nat.sub_mul, one_mul]
          have hC : 0 < C := by norm_num [C]
          rw [Nat.mod_eq_of_lt (lt_two_pow_chanBits (by omega))]
          rw [h1]
          congr 1
          omega
        have hst1 : (⟨Function.update (midState N p (N - (k + 1))).buffers
              ⟨(midState N p (N - (k + 1))).cur, hlt⟩ [],
              (nextSel (midState N p (N - (k + 1))) (lastEv (p (N - (k + 1))))).1,
              (nextSel (midState N p (N - (k + 1))) (lastEv (p (N - (k + 1))))).2⟩ : MuxState N)
            = midState N p (N - k) := by
          refine muxState_ext ?_ ?_ ?_
          · show Function.update (midState N p (N - (k + 1))).buffers
              ⟨(midState N p (N - (k + 1))).cur, hlt⟩ [] = (midState N p (N - k)).buffers
            funext b
            by_cases hbv : b = ⟨(midState N p (N - (k + 1))).cur, hlt⟩
            · subst hbv
              rw [Function.update_same]
              show ([] : List StoredEvent) = if (N - (k + 1) : ℕ) < N - k then _ else _
              rw [if_pos (by omega)]
            · rw [Function.update_noteq hbv]
              have hv : b.val ≠ N - (k + 1) := fun hv => hbv (Fin.ext hv)
              show (if b.val < N - (k + 1) then [] else mkFrame (p b.val))
                  = (if b.val < N - k then [] else mkFrame (p b.val))
              by_cases hbk : b.val < N - (k + 1)
              · rw [if_pos hbk, if_pos (by omega)]
              · rw [if_neg hbk, if_neg (by omega)]
          · show (nextSel _ _).1 = N - k
            rw [hadv]
            exact hmod1
          · show (nextSel _ _).2 = (N - k) * C
            rw [hadv]
            exact hmod2
        have hih := ihk hk (by omega)
        have hrep : (k + 1) * C = ((midFrame (p (N - (k + 1)))).length + 1) + k * C := by
          rw [midFrame_length]
          show (k + 1) * C = 8 + k * C
          norm_num [C]
          ring
        rw [hrep, List.replicate_add, runC_append, hdf]
        show (((runC (MuxState.mk _ _ _) (List.replicate (k * C) (drainTick N))).1 : MuxState N),
            _ ++ (runC (MuxState.mk _ _ _) (List.replicate (k * C) (drainTick N))).2) = _
        rw [hst1, hih, htr1]
        have hrng : List.range' (N - (k + 1)) (k + 1) = (N - (k + 1)) :: List.range' (N - k) k := by
          rw [List.range'_succ]
          have hnk : N - (k + 1) + 1 = N - k := by omega
          rw [hnk]
        rw [hrng, List.flatMap_cons]

lemma full_drain {N : ℕ} (hN : 0 < N) (p : ℕ → ℕ → ℕ) :
    runC (fullState N p) (List.replicate (N * C) (drainTick N)) =
      (initState N, roundTrace N p) := by
  have h := drain_aux p N hN (le_refl N)
  rw [Nat.sub_self] at h
  have hfs : midState N p 0 = fullState N p := by
    refine muxState_ext ?_ rfl rfl
    funext b
    show (if b.val < 0 then [] else mkFrame (p b.val)) = mkFrame (p b.val)
    rw [if_neg (by omega)]
  rw [hfs] at h
  rw [h]
  unfold roundTrace
  rw [List.range_eq_range']

lemma frameTrace_map_channel (N : ℕ) (p : ℕ → ℕ → ℕ) (b : ℕ) :
    (frameTrace N p b).map (fun t => t.2.2.channel_nr) = List.range' (b * C) C := by
  unfold frameTrace
  rw [List.map_map, List.range'_eq_map_range]
  rfl

lemma range_flatMap_blocks (n : ℕ) :
    (List.range n).flatMap (fun b => List.range' (b * C) C) = List.range (n * C) := by
  induction n with
  | zero => rfl
  | succ n ih =>
      rw [List.range_succ, List.flatMap_append, ih]
      have h1 : [n].flatMap (fun b => List.range' (b * C) C) = List.range' (n * C) C := by simp
      rw [h1]
      have h2 := List.range'_append 0 (n * C) C 1
      simp only [one_mul, Nat.zero_add] at h2
      rw [List.range_eq_range', List.range_eq_range',
        show (n + 1) * C = C + n * C by ring]
      exact h2

lemma roundTrace_map_channel (N : ℕ) (p : ℕ → ℕ → ℕ) :
    (roundTrace N p).map (fun t => t.2.2.channel_nr) = List.range (N * C) := by
  unfold roundTrace
  rw [List.map_flatMap]
  simp only [frameTrace_map_channel]
  exact range_flatMap_blocks N

lemma roundTrace_mem {N : ℕ} {p : ℕ → ℕ → ℕ} {t : ℕ × StoredEvent × OutEvent}
    (ht : t ∈ roundTrace N p) :
    ∃ b i, b < N ∧ i < C ∧
      t = (b, ⟨p b i % 2 ^ W, i, decide (i = C - 1)⟩,
           ⟨p b i % 2 ^ W, b * C + i, decide (b = 0) && decide (i = 0),
            decide (b = N - 1) && decide (i = C - 1)⟩) := by
  unfold roundTrace at ht
  obtain ⟨b, hb, ht⟩ := List.mem_flatMap.mp ht
  unfold frameTrace at ht
  obtain ⟨i, hi, rfl⟩ := List.mem_map.mp ht
  exact ⟨b, i, List.mem_range.mp hb, List.mem_range.mp hi, rfl⟩

lemma roundTrace_first_eq {N : ℕ} {p : ℕ → ℕ → ℕ} {t : ℕ × StoredEvent × OutEvent}
    (ht : t ∈ roundTrace N p) :
    t.2.2.first = decide (t.2.2.channel_nr = 0) := by
  obtain ⟨b, i, hbN, hiC, rfl⟩ := roundTrace_mem ht
  show (decide (b = 0) && decide (i = 0)) = decide (b * C + i = 0)
  by_cases hb : b = 0
  · by_cases hi : i = 0
    · simp [hb, hi]
    · simp [hb, hi]
  · have hpos : 0 < b * C := Nat.mul_pos (Nat.pos_of_ne_zero hb) (by norm_num [C])
    simp only [hb, decide_False, Bool.false_and]
    symm
    rw [decide_eq_false_iff_not]
    omega

lemma roundTrace_last_eq {N : ℕ} (hN : 0 < N) {p : ℕ → ℕ → ℕ} {t : ℕ × StoredEvent × OutEvent}
    (ht : t ∈ roundTrace N p) :
    t.2.2.last = decide (t.2.2.channel_nr = N * C - 1) := by
  obtain ⟨b, i, hbN, hiC, rfl⟩ := roundTrace_mem ht
  show (decide (b = N - 1) && decide (i = C - 1)) = decide (b * C + i = N * C - 1)
  have h8 : C = 8 := rfl
  rw [h8] at hiC ⊢
  have hiff : (b = N - 1 ∧ i = 8 - 1) ↔ b * 8 + i = N * 8 - 1 := by
    constructor
    · rintro ⟨rfl, rfl⟩
      omega
    · intro h
      omega
  calc (decide (b = N - 1) && decide (i = 8 - 1))
      = decide (b = N - 1 ∧ i = 8 - 1) := by
        by_cases h1 : b = N - 1 <;> by_cases h2 : i = 8 - 1 <;> simp [h1, h2]
    _ = decide (b * 8 + i = N * 8 - 1) := decide_eq_decide.mpr hiff

lemma beq_decide (k a : ℕ) : (k == a) = decide (k = a) := by
  rcases h : decide (k = a) with _ | _
  · simp at h
    simp [h]
  · simp at h
    simp [h]

lemma countP_range_decide_eq {n a : ℕ} (h : a < n) :
    (List.range n).countP (fun k => decide (k = a)) = 1 := by
  have h1 : (List.range n).countP (fun k => decide (k = a)) = (List.range n).count a :=
    (List.countP_congr (fun x _ => by rw [beq_decide])).symm
  rw [h1]
  exact List.count_eq_one_of_mem (List.nodup_range n) (List.mem_range.mpr h)

lemma roundTrace_count_first {N : ℕ} (hN : 0 < N) (p : ℕ → ℕ → ℕ) :
    (roundTrace N p).countP (fun t => t.2.2.first) = 1 := by
  have h1 : (roundTrace N p).countP (fun t => t.2.2.first)
      = (roundTrace N p).countP
          ((fun k => decide (k = 0)) ∘ fun t : ℕ × StoredEvent × OutEvent => t.2.2.channel_nr) :=
    List.countP_congr (fun t ht => by
      rw [Function.comp_apply, roundTrace_first_eq ht])
  rw [h1, ← List.countP_map, roundTrace_map_channel]
  exact countP_range_decide_eq (Nat.mul_pos hN (by norm_num [C]))

lemma roundTrace_count_last {N : ℕ} (hN : 0 < N) (p : ℕ → ℕ → ℕ) :
    (roundTrace N p).countP (fun t => t.2.2.last) = 1 := by
  have h1 : (roundTrace N p).countP (fun t => t.2.2.last)
      = (roundTrace N p).countP
          ((fun k => decide (k = N * C - 1)) ∘
            fun t : ℕ × StoredEvent × OutEvent => t.2.2.channel_nr) :=
    List.countP_congr (fun t ht => by
      rw [Function.comp_apply, roundTrace_last_eq hN ht])
  rw [h1, ← List.countP_map, roundTrace_map_channel]
  have hNC : 0 < N * C := Nat.mul_pos hN (by norm_num [C])
  exact countP_range_decide_eq (by omega)

lemma selFront_some {N : ℕ} {st : MuxState N} {e : StoredEvent} (h : selFront st = some e) :
    ∃ hlt : st.cur < N, st.buffers ⟨st.cur, hlt⟩ = e :: (st.buffers ⟨st.cur, hlt⟩).tail := by
  unfold selFront at h
  split at h
  · next hlt =>
      refine ⟨hlt, ?_⟩
      cases hb : st.buffers ⟨st.cur, hlt⟩ with
      | nil => rw [hb] at h; cases h
      | cons x xs =>
          rw [hb] at h
          have hx : x = e := by
            have h' : some x = some e := h
            exact Option.some.inj h'
          rw [hx]
          rfl
  · cases h

lemma stepC_some_inv {N : ℕ} {st : MuxState N} {inp : StepInput N}
    {b : ℕ} {e : StoredEvent} {o : OutEvent} (h : (stepC st inp).2 = some (b, e, o)) :
    b = st.cur ∧ selFront st = some e ∧ o = mkOut st e ∧ inp.ready = true ∧
      (stepC st inp).1.cur = (nextSel st e).1 ∧
      (stepC st inp).1.base = (nextSel st e).2 ∧
      (stepC st inp).1.buffers = fun x => nextBuffer st true inp x := by
  rcases hsel : selFront st with _ | e'
  · rw [stepC_stall (Or.inl hsel)] at h
    exact absurd h (by simp)
  · rcases hrdy : inp.ready with _ | _
    · rw [stepC_stall (Or.inr hrdy)] at h
      exact absurd h (by simp)
    · rw [stepC_emit hsel hrdy] at h
      have h' : some (st.cur, e', mkOut st e') = some (b, e, o) := h
      have h'' := Option.some.inj h'
      simp only [Prod.mk.injEq] at h''
      obtain ⟨hb, he, ho⟩ := h''
      subst hb
      subst he
      subst ho
      exact ⟨rfl, rfl, rfl, rfl, by rw [stepC_emit hsel hrdy],
        by rw [stepC_emit hsel hrdy], by rw [stepC_emit hsel hrdy]⟩

lemma stepC_none_state {N : ℕ} {st : MuxState N} {inp : StepInput N}
    (h : (stepC st inp).2 = none) :
    (stepC st inp).1.cur = st.cur ∧ (stepC st inp).1.base = st.base ∧
      (stepC st inp).1.buffers = fun b => nextBuffer st false inp b := by
  rcases hsel : selFront st with _ | e
  · rw [stepC_stall (Or.inl hsel)]
    exact ⟨rfl, rfl, rfl⟩
  · rcases hrdy : inp.ready with _ | _
    · rw [stepC_stall (Or.inr hrdy)]
      exact ⟨rfl, rfl, rfl⟩
    · rw [stepC_emit hsel hrdy] at h
      exact absurd h (by simp)

lemma run_head_tag {N : ℕ} (inps : List (StepInput N)) :
    ∀ (st : MuxState N) (t : ℕ × StoredEvent × OutEvent),
      ((runC st inps).2).head? = some t → t.1 = st.cur := by
  induction inps with
  | nil =>
      intro st t ht
      rw [runC_nil] at ht
      cases ht
  | cons inp rest ih =>
      intro st t ht
      rw [runC_cons] at ht
      rcases ho : (stepC st inp).2 with _ | tr
      · rw [ho] at ht
        have hcur := (stepC_none_state ho).1
        rw [← hcur]
        exact ih (stepC st inp).1 t ht
      · obtain ⟨tb, te, t3⟩ := tr
        rw [ho] at ht
        have htt : (tb, te, t3) = t := by
          have h' : some (tb, te, t3) = some t := ht
          exact Option.some.inj h'
        subst htt
        exact (stepC_some_inv ho).1

lemma run_chain {N : ℕ} (inps : List (StepInput N)) :
    ∀ st : MuxState N, Inv st → List.Chain' (chainRel N) (runC st inps).2 := by
  induction inps with
  | nil =>
      intro st _
      rw [runC_nil]
      exact List.chain'_nil
  | cons inp rest ih =>
      intro st hinv
      rw [runC_cons]
      rcases ho : (stepC st inp).2 with _ | tr
      · simpa using ih _ (inv_step hinv inp)
      · obtain ⟨tb, te, t3⟩ := tr
        simp only [Option.toList_some, List.singleton_append]
        rw [List.chain'_cons']
        refine ⟨?_, ih _ (inv_step hinv inp)⟩
        intro t' ht'
        have ht'mem : ((runC (stepC st inp).1 rest).2).head? = some t' := ht'
        have h1 : t'.1 = (stepC st inp).1.cur := run_head_tag rest _ t' ht'mem
        obtain ⟨hb, hsel, _, _, hc, _, _⟩ := stepC_some_inv ho
        constructor
        · intro hlast
          rw [h1, hc, nextSel_not_last hlast, hb]
        · intro hlast
          rw [h1, hc, hb]
          by_cases hcurN : st.cur = N - 1
          · rw [nextSel_reset hlast hcurN, if_pos hcurN]
          · rw [nextSel_advance hlast hcurN, if_neg hcurN]
            show (st.cur + 1) % 2 ^ curBits N = st.cur + 1
            exact Nat.mod_eq_of_lt (lt_two_pow_curBits (by have := hinv.1; omega))

lemma nextBuffer_false {N : ℕ} (st : MuxState N) (inp : StepInput N) (b : Fin N) :
    nextBuffer st false inp b =
      match inp.writes b with
      | some w => if (st.buffers b).length < C then st.buffers b ++ [store w] else st.buffers b
      | none => st.buffers b := by
  unfold nextBuffer
  simp only [Bool.false_and, Bool.false_eq_true, if_false]

lemma nextBuffer_true {N : ℕ} (st : MuxState N) (inp : StepInput N) (b : Fin N) :
    nextBuffer st true inp b =
      match inp.writes b with
      | some w => if (st.buffers b).length < C
          then (if b.val = st.cur then (st.buffers b).tail else st.buffers b) ++ [store w]
          else (if b.val = st.cur then (st.buffers b).tail else st.buffers b)
      | none => (if b.val = st.cur then (st.buffers b).tail else st.buffers b) := by
  unfold nextBuffer
  simp only [Bool.true_and, beq_decide, decide_eq_true_eq]

lemma nextBuffer_no_pop {N : ℕ} (st : MuxState N) (inp : StepInput N) (b : Fin N) :
    ∃ extra, nextBuffer st false inp b = st.buffers b ++ extra := by
  rw [nextBuffer_false]
  cases hw : inp.writes b with
  | none => exact ⟨[], (List.append_nil _).symm⟩
  | some w =>
      by_cases hl : (st.buffers b).length < C
      · exact ⟨[store w], by dsimp only; rw [if_pos hl]⟩
      · exact ⟨[], by dsimp only; rw [if_neg hl, List.append_nil]⟩

lemma run_stall {N : ℕ} :
    ∀ (inps : List (StepInput N)) (st : MuxState N), (∀ i ∈ inps, i.ready = false) →
      (runC st inps).2 = [] ∧ (runC st inps).1.cur = st.cur ∧
        (runC st inps).1.base = st.base ∧
        ∀ b : Fin N, ∃ extra, (runC st inps).1.buffers b = st.buffers b ++ extra := by
  intro inps
  induction inps with
  | nil =>
      intro st _
      exact ⟨rfl, rfl, rfl, fun b => ⟨[], (List.append_nil _).symm⟩⟩
  | cons inp rest ih =>
      intro st hr
      have h1 : inp.ready = false := hr inp (List.mem_cons_self _ _)
      have hrest : ∀ i ∈ rest, i.ready = false := fun i hi => hr i (List.mem_cons_of_mem _ hi)
      rw [runC_cons, stepC_stall (Or.inr h1)]
      obtain ⟨ht, hc, hb, hbufs⟩ :=
        ih (⟨fun x => nextBuffer st false inp x, st.cur, st.base⟩ : MuxState N) hrest
      refine ⟨?_, ?_, ?_, ?_⟩
      · show (none : Option (ℕ × StoredEvent × OutEvent)).toList ++
            (runC (⟨fun x => nextBuffer st false inp x, st.cur, st.base⟩ : MuxState N) rest).2
            = []
        rw [ht]
        rfl
      · show (runC (⟨fun x => nextBuffer st false inp x, st.cur, st.base⟩ : MuxState N)
            rest).1.cur = st.cur
        rw [hc]
      · show (runC (⟨fun x => nextBuffer st false inp x, st.cur, st.base⟩ : MuxState N)
            rest).1.base = st.base
        rw [hb]
      · intro b
        obtain ⟨e1, he1⟩ := hbufs b
        obtain ⟨e0, he0⟩ := nextBuffer_no_pop st inp b
        refine ⟨e0 ++ e1, ?_⟩
        show (runC (⟨fun x => nextBuffer st false inp x, st.cur, st.base⟩ : MuxState N)
            rest).1.buffers b = st.buffers b ++ (e0 ++ e1)
        rw [he1]
        show nextBuffer st false inp b ++ e1 = st.buffers b ++ (e0 ++ e1)
        rw [he0, List.append_assoc]

lemma stall_replay {N : ℕ} (inps : List (StepInput N)) (st : MuxState N)
    (hr : ∀ i ∈ inps, i.ready = false) (hlt : st.cur < N) {e : StoredEvent}
    {rest : List StoredEvent} (hbuf : st.buffers ⟨st.cur, hlt⟩ = e :: rest)
    (inp2 : StepInput N) (hrdy : inp2.ready = true) :
    (stepC (runC st inps).1 inp2).2 = some (st.cur, e, mkOut st e) := by
  obtain ⟨_, hc, hb, hbufs⟩ := run_stall inps st hr
  obtain ⟨extra, hex⟩ := hbufs ⟨st.cur, hlt⟩
  have hlt1 : (runC st inps).1.cur < N := by rw [hc]; exact hlt
  have hsel : selFront (runC st inps).1 = some e := by
    rw [selFront_eq _ hlt1]
    have hidx : (⟨(runC st inps).1.cur, hlt1⟩ : Fin N) = ⟨st.cur, hlt⟩ := Fin.ext hc
    rw [hidx, hex, hbuf]
    rfl
  rw [stepC_emit hsel hrdy]
  show some ((runC st inps).1.cur, e, mkOut (runC st inps).1 e) = some (st.cur, e, mkOut st e)
  rw [hc, mkOut_eq_sel hc hb e]

lemma writtenTo_cons {N : ℕ} (b : Fin N) (inp : StepInput N) (rest : List (StepInput N)) :
    writtenTo b (inp :: rest) =
      (match inp.writes b with | some w => [store w] | none => []) ++ writtenTo b rest := by
  unfold writtenTo
  rw [List.filterMap_cons]
  cases inp.writes b <;> rfl

lemma emittedFrom_append (b : ℕ) (t1 t2 : List (ℕ × StoredEvent × OutEvent)) :
    emittedFrom b (t1 ++ t2) = emittedFrom b t1 ++ emittedFrom b t2 := by
  unfold emittedFrom
  rw [List.filter_append, List.map_append]

lemma step_fifo {N : ℕ} (st : MuxState N) (inp : StepInput N) (b : Fin N)
    (hok : ∀ w : InEvent, inp.writes b = some w → (st.buffers b).length < C) :
    emittedFrom b.val (stepC st inp).2.toList ++ (stepC st inp).1.buffers b
      = st.buffers b ++ match inp.writes b with | some w => [store w] | none => [] := by
  rcases ho : (stepC st inp).2 with _ | tr
  · obtain ⟨_, _, hbufs⟩ := stepC_none_state ho
    rw [hbufs]
    show emittedFrom b.val [] ++ nextBuffer st false inp b = _
    rw [nextBuffer_false]
    cases hw : inp.writes b with
    | none => simp [emittedFrom]
    | some w =>
        dsimp only
        rw [if_pos (hok w hw)]
        simp [emittedFrom]
  · obtain ⟨tb, te, t3⟩ := tr
    obtain ⟨htb, hsel, _, _, _, _, hbufs⟩ := stepC_some_inv ho
    obtain ⟨hlt, hdec⟩ := selFront_some hsel
    rw [hbufs]
    show emittedFrom b.val [(tb, te, t3)] ++ nextBuffer st true inp b = _
    rw [nextBuffer_true]
    by_cases hbc : b.val = st.cur
    · have hbfin : b = ⟨st.cur, hlt⟩ := Fin.ext hbc
      have he : emittedFrom b.val [(tb, te, t3)] = [te] := by
        unfold emittedFrom
        have : (tb == b.val) = true := by rw [htb, hbc, beq_decide, decide_eq_true_eq]
        simp [this]
      rw [he]
      have hdecb : st.buffers b = te :: (st.buffers b).tail := by rw [hbfin]; exact hdec
      cases hw : inp.writes b with
      | none =>
          dsimp only
          rw [if_pos hbc]
          show [te] ++ (st.buffers b).tail = st.buffers b ++ []
          rw [List.append_nil]
          exact (hdecb).symm
      | some w =>
          dsimp only
          rw [if_pos (hok w hw), if_pos hbc]
          show [te] ++ ((st.buffers b).tail ++ [store w]) = st.buffers b ++ [store w]
          rw [← List.append_assoc]
          congr 1
          exact (hdecb).symm
    · have he : emittedFrom b.val [(tb, te, t3)] = [] := by
        unfold emittedFrom
        have : (tb == b.val) = false := by
          rw [htb, beq_decide, decide_eq_false_iff_not]
          exact fun hcongr => hbc hcongr.symm
        simp [this]
      rw [he]
      cases hw : inp.writes b with
      | none =>
          dsimp only
          rw [if_neg hbc]
          simp
      | some w =>
          dsimp only
          rw [if_pos (hok w hw), if_neg hbc]
          simp

lemma okHandshake_cons {N : ℕ} (st : MuxState N) (inp : StepInput N) (rest : List (StepInput N)) :
    okHandshake st (inp :: rest) = true ↔
      ((∀ b : Fin N, (inp.writes b).isSome = true → (st.buffers b).length < C) ∧
        okHandshake (stepC st inp).1 rest = true) := by
  show (decide _ && okHandshake (stepC st inp).1 rest) = true ↔ _
  rw [Bool.and_eq_true, decide_eq_true_eq]

lemma run_fifo {N : ℕ} (b : Fin N) :
    ∀ (inps : List (StepInput N)) (st : MuxState N), okHandshake st inps = true →
      emittedFrom b.val (runC st inps).2 ++ (runC st inps).1.buffers b
        = st.buffers b ++ writtenTo b inps := by
  intro inps
  induction inps with
  | nil =>
      intro st _
      show emittedFrom b.val [] ++ st.buffers b = st.buffers b ++ writtenTo b []
      simp [emittedFrom, writtenTo]
  | cons inp rest ih =>
      intro st hok
      obtain ⟨hok1, hok2⟩ := (okHandshake_cons st inp rest).mp hok
      rw [runC_cons, emittedFrom_append, List.append_assoc, ih _ hok2, ← List.append_assoc,
        step_fifo st inp b (fun w hw => hok1 b (by rw [hw]; rfl)), List.append_assoc,
        writtenTo_cons]

lemma nextBuffer_scrub {N : ℕ} (st : MuxState N) (dp : Bool) (inp : StepInput N) (b : Fin N) :
    nextBuffer st dp (scrub inp) b = nextBuffer st dp inp b := by
  unfold nextBuffer
  have hw : (scrub inp).writes b
      = (inp.writes b).map fun e => ⟨e.payload, e.channel, false, e.last⟩ := rfl
  rw [hw]
  cases he : inp.writes b with
  | none => rfl
  | some w => rfl

lemma stepC_scrub {N : ℕ} (st : MuxState N) (inp : StepInput N) :
    stepC st (scrub inp) = stepC st inp := by
  rcases hsel : selFront st with _ | e
  · have h1 := stepC_stall (Or.inl hsel : selFront st = none ∨ (scrub inp).ready = false)
    have h2 := stepC_stall (Or.inl hsel : selFront st = none ∨ inp.ready = false)
    rw [h1, h2]
    exact Prod.ext (muxState_ext (funext fun b => nextBuffer_scrub st false inp b) rfl rfl) rfl
  · rcases hrdy : inp.ready with _ | _
    · have h1 := stepC_stall (Or.inr hrdy : selFront st = none ∨ (scrub inp).ready = false)
      have h2 := stepC_stall (Or.inr hrdy : selFront st = none ∨ inp.ready = false)
      rw [h1, h2]
      exact Prod.ext (muxState_ext (funext fun b => nextBuffer_scrub st false inp b) rfl rfl) rfl
    · have h1 := stepC_emit hsel (show (scrub inp).ready = true from hrdy)
      have h2 := stepC_emit hsel hrdy
      rw [h1, h2]
      exact Prod.ext (muxState_ext (funext fun b => nextBuffer_scrub st true inp b) rfl rfl) rfl

lemma runC_scrub {N : ℕ} : ∀ (inps : List (StepInput N)) (st : MuxState N),
    runC st (inps.map scrub) = runC st inps := by
  intro inps
  induction inps with
  | nil => intro st; rfl
  | cons inp rest ih =>
      intro st
      rw [List.map_cons, runC_cons, runC_cons, stepC_scrub, ih]

lemma stepC_stall_frozen {N : ℕ} {st : MuxState N} {inp : StepInput N}
    (h : selFront st = none ∨ inp.ready = false) (hw : ∀ b, inp.writes b = none) :
    stepC st inp = (st, none) := by
  rw [stepC_stall h]
  refine Prod.ext ?_ rfl
  refine muxState_ext (funext fun b => ?_) rfl rfl
  show nextBuffer st false inp b = st.buffers b
  rw [nextBuffer_no_write (hw b)]
  simp

lemma selAdvance_eq_nextSel {N : ℕ} (st : MuxState N) (e : StoredEvent) (hel : e.last = true) :
    nextSel st e = selAdvance N (st.cur, st.base) := by
  unfold selAdvance
  by_cases hb : st.cur = N - 1
  · rw [nextSel_reset hel hb, if_pos hb]
  · rw [nextSel_advance hel hb, if_neg hb]

lemma selAdvance_iterate_aux {N : ℕ} (hN : 0 < N) :
    ∀ k, k ≤ N - 1 → (selAdvance N)^[k] (0, 0) = (k, k * C) := by
  intro k
  induction k with
  | zero => intro _; simp
  | succ k ih =>
      intro hk
      rw [Function.iterate_succ_apply', ih (by omega)]
      unfold selAdvance
      rw [if_neg (show ¬ ((k, k * C) : ℕ × ℕ).1 = N - 1 by dsimp only; omega)]
      have h1 : ((k, k * C) : ℕ × ℕ).1 + 1 = k + 1 := rfl
      have h2 : ((k, k * C) : ℕ × ℕ).2 + C = k * C + C := rfl
      rw [h1, h2]
      refine Prod.ext ?_ ?_
      · show (k + 1) % 2 ^ curBits N = k + 1
        exact Nat.mod_eq_of_lt (lt_two_pow_curBits hk)
      · show (k * C + C) % 2 ^ chanBits N = (k + 1) * C
        have h3 : (k + 1) * C = k * C + C := by ring
        have h4 : (k + 1) * C ≤ (N - 1) * C := Nat.mul_le_mul_right _ hk
        have h5 : (N - 1) * C = N * C - C := by rw [Nat.sub_mul, one_mul]
        have hC : 0 < C := by norm_num [C]
        have hNC : C ≤ N * C := Nat.le_mul_of_pos_left C hN
        rw [Nat.mod_eq_of_lt (lt_two_pow_chanBits (by omega)), h3]

lemma selAdvance_round {N : ℕ} (hN : 0 < N) : (selAdvance N)^[N] (0, 0) = (0, 0) := by
  have hN1 : N = (N - 1) + 1 := by omega
  have hcount : (selAdvance N)^[N] ((0 : ℕ), (0 : ℕ)) = (selAdvance N)^[(N - 1) + 1] (0, 0) :=
    congrFun (congrArg (fun n => (selAdvance N)^[n]) hN1) (0, 0)
  rw [hcount, Function.iterate_succ_apply', selAdvance_iterate_aux hN (N - 1) (le_refl _)]
  unfold selAdvance
  rw [if_pos rfl]

lemma emit_channel_facts {N : ℕ} (hN : 0 < N) {st : MuxState N} (hst : Reachable N st)
    {inp : StepInput N} {b : ℕ} {e : StoredEvent} {o : OutEvent}
    (h : (stepC st inp).2 = some (b, e, o)) :
    o.channel_nr = st.base + e.channel ∧ st.base = st.cur * C ∧ b = st.cur ∧
      st.cur < N ∧ e.channel < C ∧ o = mkOut st e := by
  obtain ⟨hinv1, hinv2, hinv3⟩ := inv_reachable hN hst
  obtain ⟨hb, hsel, ho, _, _, _, _⟩ := stepC_some_inv h
  obtain ⟨hlt, hdec⟩ := selFront_some hsel
  have hmem : e ∈ st.buffers ⟨st.cur, hlt⟩ := by
    rw [hdec]
    exact List.mem_cons_self _ _
  obtain ⟨hpay, hch⟩ := (hinv3 ⟨st.cur, hlt⟩).2 e hmem
  have hbound : st.base + e.channel ≤ N * C - 1 := by
    rw [hinv2]
    have h1 : st.cur + 1 ≤ N := hinv1
    have h2 : (st.cur + 1) * C ≤ N * C := Nat.mul_le_mul_right _ h1
    have h3 : (st.cur + 1) * C = st.cur * C + C := by ring
    omega
  have hcn : o.channel_nr = st.base + e.channel := by
    rw [ho]
    show (st.base + e.channel) % 2 ^ chanBits N = _
    exact Nat.mod_eq_of_lt (lt_two_pow_chanBits hbound)
  exact ⟨hcn, hinv2, hb, hinv1, hch, ho⟩

/-- C1: bundles are drained strictly in index order: every emission comes
from the currently selected bundle's front event, an empty selected bundle
stalls the whole output (no skip-ahead, whatever the other bundles hold),
and in any run from power-on consecutive emissions stay in the same bundle
until a last-flagged event is consumed, after which the source moves to
the cyclically next bundle — so no event of a later bundle ever precedes
the completion of the selected bundle's current frame. -/
theorem C1_strict_bundle_order (N : ℕ) (hN : 0 < N) :
    (∀ (st : MuxState N) (inp : StepInput N) (b : ℕ) (e : StoredEvent) (o : OutEvent),
      (stepC st inp).2 = some (b, e, o) → b = st.cur ∧ selFront st = some e) ∧
    (∀ (st : MuxState N) (inp : StepInput N) (hlt : st.cur < N),
      st.buffers ⟨st.cur, hlt⟩ = [] → (stepC st inp).2 = none) ∧
    (∀ inps : List (StepInput N), List.Chain' (chainRel N) (runC (initState N) inps).2) := by
  refine ⟨?_, ?_, ?_⟩
  · intro st inp b e o h
    obtain ⟨hb, hsel, _⟩ := stepC_some_inv h
    exact ⟨hb, hsel⟩
  · intro st inp hlt hbuf
    have hsel : selFront st = none := by
      rw [selFront_eq st hlt, hbuf]
      rfl
    rw [stepC_stall (Or.inl hsel)]
  · intro inps
    exact run_chain inps _ (inv_init hN)

theorem C1_witness :
    List.Chain' (chainRel 4) (runC (initState 4) [wIn0, drainTick 4]).2 :=
  (C1_strict_bundle_order 4 (by decide)).2.2 [wIn0, drainTick 4]

/-- C2: for every emitted output event, the global channel number equals
the selector's channel base plus the consumed event's sub-channel, which
equals bundle-index times C plus sub-channel, with the bundle index in
`[0, N)`, the sub-channel in `[0, C)` and the channel number in `[0, N*C)`. -/
theorem C2_channel_numbering (N : ℕ) (hN : 0 < N) (st : MuxState N) (hst : Reachable N st)
    (inp : StepInput N) (b : ℕ) (e : StoredEvent) (o : OutEvent)
    (h : (stepC st inp).2 = some (b, e, o)) :
    o.channel_nr = st.base + e.channel ∧ o.channel_nr = b * C + e.channel ∧
      b < N ∧ e.channel < C ∧ o.channel_nr < N * C := by
  obtain ⟨hcn, hb2, hb, hcur, hch, _⟩ := emit_channel_facts hN hst h
  have hC : 0 < C := by norm_num [C]
  refine ⟨hcn, ?_, ?_, hch, ?_⟩
  · rw [hcn, hb, hb2]
  · rw [hb]
    exact hcur
  · rw [hcn, hb2]
    have h1 : st.cur + 1 ≤ N := hcur
    have h2 : (st.cur + 1) * C ≤ N * C := Nat.mul_le_mul_right _ h1
    have h3 : (st.cur + 1) * C = st.cur * C + C := by ring
    omega

theorem C2_witness :
    (⟨5, 0, true, false⟩ : OutEvent).channel_nr
        = wSt1.base + (⟨5, 0, false⟩ : StoredEvent).channel ∧
      (⟨5, 0, true, false⟩ : OutEvent).channel_nr
        = 0 * C + (⟨5, 0, false⟩ : StoredEvent).channel ∧
      0 < 4 ∧ (⟨5, 0, false⟩ : StoredEvent).channel < C ∧
      (⟨5, 0, true, false⟩ : OutEvent).channel_nr < 4 * C :=
  C2_channel_numbering 4 (by decide) wSt1 ⟨[wIn0], rfl⟩ (drainTick 4) 0
    ⟨5, 0, false⟩ ⟨5, 0, true, false⟩ (by decide)

/-- C3: in every reachable state the selector invariant
`channel_base = current_bundle * C` holds; the power-on state is `(0, 0)`;
and whenever the last bundle's last-flagged sub-channel is consumed the
selector returns to `(0, 0)`. -/
theorem C3_selector_invariant (N : ℕ) (hN : 0 < N) :
    (∀ st : MuxState N, Reachable N st → st.base = st.cur * C) ∧
    ((initState N).cur = 0 ∧ (initState N).base = 0) ∧
    (∀ (st : MuxState N) (inp : StepInput N) (b : ℕ) (e : StoredEvent) (o : OutEvent),
      (stepC st inp).2 = some (b, e, o) → e.last = true → b = N - 1 →
        (stepC st inp).1.cur = 0 ∧ (stepC st inp).1.base = 0) := by
  refine ⟨?_, ⟨rfl, rfl⟩, ?_⟩
  · intro st hst
    exact (inv_reachable hN hst).2.1
  · intro st inp b e o h hel hbN
    obtain ⟨hb, _, _, _, hc, hbase, _⟩ := stepC_some_inv h
    have hcur : st.cur = N - 1 := by rw [← hb]; exact hbN
    rw [hc, hbase, nextSel_reset hel hcur]
    exact ⟨rfl, rfl⟩

theorem C3_witness : wSt1.base = wSt1.cur * C :=
  (C3_selector_invariant 4 (by decide)).1 wSt1 ⟨[wIn0], rfl⟩

/-- C4: the selector transition is exactly: on a consumed last-flagged
event, reset to `(0, 0)` from the last bundle and otherwise advance to
`(current_bundle + 1, channel_base + C)`; on a consumed event without the
last flag, and on ticks with no consumption, the selector is unchanged;
the transition on last-flagged events is the cyclic `selAdvance` map, and
N applications of it return the power-on selector `(0, 0)`. -/
theorem C4_selector_transition (N : ℕ) (hN : 0 < N) :
    (∀ st : MuxState N, Reachable N st → ∀ inp : StepInput N,
      (∀ (b : ℕ) (e : StoredEvent) (o : OutEvent), (stepC st inp).2 = some (b, e, o) →
        (e.last = true → st.cur = N - 1 →
            (stepC st inp).1.cur = 0 ∧ (stepC st inp).1.base = 0) ∧
        (e.last = true → st.cur ≠ N - 1 →
            (stepC st inp).1.cur = st.cur + 1 ∧ (stepC st inp).1.base = st.base + C) ∧
        (e.last = false →
            (stepC st inp).1.cur = st.cur ∧ (stepC st inp).1.base = st.base)) ∧
      ((stepC st inp).2 = none →
        (stepC st inp).1.cur = st.cur ∧ (stepC st inp).1.base = st.base)) ∧
    (∀ (st : MuxState N) (inp : StepInput N) (b : ℕ) (e : StoredEvent) (o : OutEvent),
      (stepC st inp).2 = some (b, e, o) → e.last = true →
        ((stepC st inp).1.cur, (stepC st inp).1.base) = selAdvance N (st.cur, st.base)) ∧
    (selAdvance N)^[N] (0, 0) = (0, 0) := by
  refine ⟨?_, ?_, selAdvance_round hN⟩
  · intro st hst inp
    obtain ⟨hinv1, hinv2, _⟩ := inv_reachable hN hst
    constructor
    · intro b e o h
      obtain ⟨_, _, _, _, hc, hbase, _⟩ := stepC_some_inv h
      refine ⟨?_, ?_, ?_⟩
      · intro hel hcur
        rw [hc, hbase, nextSel_reset hel hcur]
        exact ⟨rfl, rfl⟩
      · intro hel hcur
        rw [hc, hbase, nextSel_advance hel hcur]
        constructor
        · show (st.cur + 1) % 2 ^ curBits N = st.cur + 1
          exact Nat.mod_eq_of_lt (lt_two_pow_curBits (by omega))
        · show (st.base + C) % 2 ^ chanBits N = st.base + C
          have h1 : st.cur + 1 ≤ N - 1 := by omega
          have h2 : (st.cur + 1) * C ≤ (N - 1) * C := Nat.mul_le_mul_right _ h1
          have h3 : (st.cur + 1) * C = st.cur * C + C := by ring
          have h4 : (N - 1) * C = N * C - C := by rw [Nat.sub_mul, one_mul]
          have hC : 0 < C := by norm_num [C]
          refine Nat.mod_eq_of_lt (lt_two_pow_chanBits ?_)
          rw [hinv2]
          omega
      · intro hel
        rw [hc, hbase, nextSel_not_last hel]
        exact ⟨rfl, rfl⟩
    · intro h
      obtain ⟨hc, hbase, _⟩ := stepC_none_state h
      exact ⟨hc, hbase⟩
  · intro st inp b e o h hel
    obtain ⟨_, _, _, _, hc, hbase, _⟩ := stepC_some_inv h
    rw [hc, hbase, selAdvance_eq_nextSel st e hel]

theorem C4_witness : (selAdvance 4)^[4] (0, 0) = (0, 0) :=
  (C4_selector_transition 4 (by decide)).2.2

/-- C5: an emitted event's first flag is set exactly when the selected
bundle is 0 and the consumed sub-channel is 0, and its last flag exactly
when the selected bundle is N-1 and the consumed event carries the last
flag; consequently a full drained round contains exactly one event with
first set and exactly one with last set. -/
theorem C5_frame_markers (N : ℕ) (hN : 0 < N) (p : ℕ → ℕ → ℕ) :
    (∀ (st : MuxState N) (inp : StepInput N) (b : ℕ) (e : StoredEvent) (o : OutEvent),
      (stepC st inp).2 = some (b, e, o) →
        ((o.first = true ↔ st.cur = 0 ∧ e.channel = 0) ∧
         (o.last = true ↔ st.cur = N - 1 ∧ e.last = true))) ∧
    (drainOuts N p).countP (fun o => o.first) = 1 ∧
    (drainOuts N p).countP (fun o => o.last) = 1 := by
  have hdo : drainOuts N p = (roundTrace N p).map (fun t => t.2.2) := by
    unfold drainOuts
    rw [full_drain hN p]
  refine ⟨?_, ?_, ?_⟩
  · intro st inp b e o h
    obtain ⟨_, _, ho, _⟩ := stepC_some_inv h
    constructor
    · rw [ho]
      show (decide (st.cur = 0) && decide (e.channel = 0)) = true ↔ _
      rw [Bool.and_eq_true, decide_eq_true_eq, decide_eq_true_eq]
    · rw [ho]
      show (decide (st.cur = N - 1) && e.last) = true ↔ _
      rw [Bool.and_eq_true, decide_eq_true_eq]
  · rw [hdo, List.countP_map]
    exact roundTrace_count_first hN p
  · rw [hdo, List.countP_map]
    exact roundTrace_count_last hN p

theorem C5_witness :
    (drainOuts 4 pW).countP (fun o => o.first) = 1 ∧
      (drainOuts 4 pW).countP (fun o => o.last) = 1 :=
  ⟨(C5_frame_markers 4 (by decide) pW).2.1, (C5_frame_markers 4 (by decide) pW).2.2⟩

/-- C6: on any tick with no emission (selected buffer empty or consumer
not ready) and no arriving writes the whole state is unchanged and no
output is produced; any all-stalled run emits nothing, leaves the selector
untouched and only appends newly written events behind the buffered ones;
and the first emission after the stall ends carries exactly the front
event that was pending when the stall began. -/
theorem C6_backpressure_lossless (N : ℕ) :
    (∀ (st : MuxState N) (inp : StepInput N),
      (selFront st = none ∨ inp.ready = false) → (∀ b, inp.writes b = none) →
        stepC st inp = (st, none)) ∧
    (∀ (inps : List (StepInput N)) (st : MuxState N), (∀ i ∈ inps, i.ready = false) →
      (runC st inps).2 = [] ∧ (runC st inps).1.cur = st.cur ∧
        (runC st inps).1.base = st.base ∧
        ∀ b : Fin N, ∃ extra, (runC st inps).1.buffers b = st.buffers b ++ extra) ∧
    (∀ (inps : List (StepInput N)) (st : MuxState N) (hlt : st.cur < N) (e : StoredEvent)
      (rest : List StoredEvent) (inp2 : StepInput N),
      (∀ i ∈ inps, i.ready = false) → st.buffers ⟨st.cur, hlt⟩ = e :: rest →
        inp2.ready = true →
        (stepC (runC st inps).1 inp2).2 = some (st.cur, e, mkOut st e)) := by
  refine ⟨?_, ?_, ?_⟩
  · intro st inp h hw
    exact stepC_stall_frozen h hw
  · intro inps st h
    exact run_stall inps st h
  · intro inps st hlt e rest inp2 hr hbuf hrdy
    exact stall_replay inps st hr hlt hbuf inp2 hrdy

theorem C6_witness :
    (stepC (runC wSt1 [stallTick 4]).1 (drainTick 4)).2
      = some (wSt1.cur, ⟨5, 0, false⟩, mkOut wSt1 ⟨5, 0, false⟩) :=
  (C6_backpressure_lossless 4).2.2 [stallTick 4] wSt1 (by decide) ⟨5, 0, false⟩ []
    (drainTick 4) (by decide) (by decide) rfl

/-- C7: under the producer handshake contract, for every bundle the events
consumed from that bundle followed by the events still buffered equal, in
order, exactly the events written to it — FIFO order with no duplication
and no loss. -/
theorem C7_fifo_order (N : ℕ) (inps : List (StepInput N)) (b : Fin N)
    (hok : okHandshake (initState N) inps = true) :
    emittedFrom b.val (runC (initState N) inps).2 ++ (runC (initState N) inps).1.buffers b
      = writtenTo b inps := by
  have h := run_fifo b inps (initState N) hok
  rw [h]
  exact List.nil_append _

theorem C7_witness :
    emittedFrom (0 : ℕ) (runC (initState 4) [wIn0, drainTick 4]).2
        ++ (runC (initState 4) [wIn0, drainTick 4]).1.buffers ⟨0, by decide⟩
      = writtenTo ⟨0, by decide⟩ [wIn0, drainTick 4] :=
  C7_fifo_order 4 [wIn0, drainTick 4] ⟨0, by decide⟩ (by decide)

/-- C8: draining a full round of well-formed frames produces the channel
numbers `0, 1, ..., N*C-1` in order (so the channel number increases by 1
from each transferred event to the next within the aggregate frame), and
on every reachable emission the channel number is 0 exactly when the first
flag is asserted. -/
theorem C8_channel_progression (N : ℕ) (hN : 0 < N) (p : ℕ → ℕ → ℕ) :
    ((drainOuts N p).map (fun o => o.channel_nr) = List.range (N * C)) ∧
    (∀ st : MuxState N, Reachable N st → ∀ (inp : StepInput N) (b : ℕ) (e : StoredEvent)
      (o : OutEvent), (stepC st inp).2 = some (b, e, o) →
        (o.channel_nr = 0 ↔ o.first = true)) := by
  constructor
  · unfold drainOuts
    rw [full_drain hN p, List.map_map]
    exact roundTrace_map_channel N p
  · intro st hst inp b e o h
    obtain ⟨hcn, hb2, _, _, hch, ho⟩ := emit_channel_facts hN hst h
    have hC : 0 < C := by norm_num [C]
    have hfirst : o.first = (decide (st.cur = 0) && decide (e.channel = 0)) := by
      rw [ho]
      rfl
    constructor
    · intro h0
      rw [hcn, hb2] at h0
      have hcur0 : st.cur = 0 := by
        by_contra hne
        have hpos : 0 < st.cur * C := Nat.mul_pos (Nat.pos_of_ne_zero hne) hC
        omega
      have hch0 : e.channel = 0 := by
        rw [hcur0] at h0
        simpa using h0
      rw [hfirst, hcur0, hch0]
      rfl
    · intro h1
      rw [hfirst, Bool.and_eq_true, decide_eq_true_eq, decide_eq_true_eq] at h1
      rw [hcn, hb2, h1.1, h1.2]
      simp

theorem C8_witness :
    (drainOuts 4 pW).map (fun o => o.channel_nr) = List.range (4 * C) :=
  (C8_channel_progression 4 (by decide) pW).1

/-- C9: the output is independent of the informational input first flags:
two stimulus lists that agree after scrubbing the first flags (all
payloads, sub-channels, last flags, valid and ready timing identical)
drive the core to the same final state and the same output trace. -/
theorem C9_first_flag_irrelevant (N : ℕ) (inps1 inps2 : List (StepInput N))
    (h : inps1.map scrub = inps2.map scrub) :
    runC (initState N) inps1 = runC (initState N) inps2 := by
  rw [← runC_scrub inps1, ← runC_scrub inps2, h]

theorem C9_witness : runC (initState 4) [wIn0] = runC (initState 4) [wIn0x] :=
  C9_first_flag_irrelevant 4 [wIn0] [wIn0x] (by decide)

/-- C10: the core never asserts output valid while the consumer's ready is
deasserted — a tick with ready low emits nothing, and a consumer that
holds ready low forever never observes an emission. -/
theorem C10_valid_implies_ready (N : ℕ) :
    (∀ (st : MuxState N) (inp : StepInput N), inp.ready = false → (stepC st inp).2 = none) ∧
    (∀ (inps : List (StepInput N)) (st : MuxState N), (∀ i ∈ inps, i.ready = false) →
      (runC st inps).2 = []) := by
  refine ⟨?_, ?_⟩
  · intro st inp h
    rw [stepC_stall (Or.inr h)]
  · intro inps st h
    exact (run_stall inps st h).1

theorem C10_witness : (stepC wSt1 (stallTick 4)).2 = none :=
  (C10_valid_implies_ready 4).1 wSt1 (stallTick 4) rfl

end BundleMultiplexer
